import Mathlib

/-!
Verification of `find_duplicates.py`: a two-phase duplicate-file finder.
Phase 1 (`group_by_size`) walks a directory tree and buckets file paths by
byte size, keeping only buckets with at least two paths.  Phase 2
(`hash_groups`) submits one hashing job per candidate path to a thread pool,
collects results in completion order, buckets paths by content digest and
keeps only digest buckets with at least two paths.  `save_result` serializes
the final buckets.

The embedding below models the filesystem as a list of `Entry` values (the
flattened output of `os.walk`), the MD5 digest as an arbitrary function
`hashFn : List Nat → Nat` of the byte content fed to the incremental
accumulator, and the nondeterministic completion order of
`concurrent.futures.as_completed` as an arbitrary permutation of the
submitted job list.  Python dictionaries (`defaultdict(list)`) preserve key
insertion order, so they are modelled as association lists with ordered
insertion (`addToBucket`).
-/

namespace FindDuplicates

/-- The kind of a non-directory entry yielded by `os.walk`.  `os.walk` lists
symlinks to files and special files (FIFOs, devices) in its `files`
component together with regular files; the Python code never inspects the
kind, so it is carried here only so that claims about kinds can be stated. -/
inductive EntryKind where
  | regular : EntryKind
  | symlink : EntryKind
  | special : EntryKind
deriving DecidableEq

/-- One non-directory entry of the walked tree.  `path` is the full path
(`os.path.join(root, name)`).  `statSize` models `os.path.getsize`: `some n`
when the stat succeeds (for a symlink this is the size of the target, since
`getsize` follows links), `none` when it raises (permission error, broken
link, race with deletion).  `content` models opening and fully reading the
file at hashing time: `some bytes` on success, `none` when opening or any
read raises (the `try` in `md5` spans the whole read loop, so a mid-read
failure also yields no digest). -/
structure Entry where
  path : String
  kind : EntryKind
  statSize : Option Nat
  content : Option (List Nat)
deriving DecidableEq

/-- Reading the file at path `p`: the content of the first entry with that
path, `none` when there is no such entry (open raises) or its read fails. -/
def readFile (fs : List Entry) (p : String) : Option (List Nat) :=
  match fs with
  | [] => none
  | e :: rest => if e.path = p then e.content else readFile rest p

/-- `defaultdict(list)` with `m[k].append(v)`: Python dicts preserve key
insertion order, so the map is an association list; a new key is appended at
the end, an existing key has `v` appended to its value list. -/
def addToBucket {α β : Type} [DecidableEq α] : List (α × List β) → α → β → List (α × List β)
  | [], k, v => [(k, [v])]
  | (k₂, vs) :: rest, k, v =>
    if k₂ = k then (k₂, vs ++ [v]) :: rest else (k₂, vs) :: addToBucket rest k v

/-- Lookup in the ordered bucket map: the value list of the first entry with
key `k`, or `[]` when the key is absent. -/
def lookupB {α β : Type} [DecidableEq α] : List (α × List β) → α → List β
  | [], _ => []
  | (k₂, vs) :: rest, k => if k₂ = k then vs else lookupB rest k

/-- The keys of a bucket map, in order. -/
def bucketKeys {α β : Type} (m : List (α × List β)) : List α :=
  m.map (fun kv => kv.1)

/-- Building a bucket map from a list of key/value pairs by repeated
`addToBucket`, starting from the empty map. -/
def buildBuckets {α β : Type} [DecidableEq α] (l : List (α × β)) : List (α × List β) :=
  l.foldl (fun m kv => addToBucket m kv.1 kv.2) []

/-- `get_file_size` (find_duplicates.py lines 7-11): `os.path.getsize` in a
`try`, returning `-1` on any exception. -/
def get_file_size (e : Entry) : Int :=
  match e.statSize with
  | some n => (n : Int)
  | none => -1

/-- `group_by_size` (lines 23-32): walk the tree, for each entry take its
size and, when the size is non-negative (the stat succeeded), append the
path to the size's bucket; finally keep only the bucket value lists with
more than one path.  The entry's kind is never consulted. -/
def group_by_size (entries : List Entry) : List (List String) :=
  let size_map := entries.foldl
    (fun m e => if 0 ≤ get_file_size e then addToBucket m (get_file_size e) e.path else m)
    ([] : List (Int × List String))
  (size_map.map (fun kv => kv.2)).filter (fun files => decide (1 < files.length))

/-- The guarded key/value pair the `group_by_size` loop body inserts for one
entry: `some (size, path)` when the stat succeeded, `none` when the entry is
skipped.  Used to relate the loop to `buildBuckets`. -/
def sizeKV (e : Entry) : Option (Int × String) :=
  if 0 ≤ get_file_size e then some (get_file_size e, e.path) else none

/-- The read loop of `md5`, with an explicit iteration bound: each
iteration hands back the next `bs` bytes of the remaining content and
recurses on the rest.  `fuel` only bounds the number of loop iterations so
that the recursion is structural; with a positive block size every
iteration consumes at least one byte, so any `fuel ≥ length` is exact. -/
def readChunksFuel (bs : Nat) : Nat → List Nat → List (List Nat)
  | _, [] => []
  | 0, _ :: _ => []
  | fuel + 1, x :: xs =>
    if bs = 0 then [] else (x :: xs).take bs :: readChunksFuel bs fuel ((x :: xs).drop bs)

/-- `f.read(block_size)` driven by `iter(lambda: f.read(block_size), b"")`
(line 17): successive takes of `block_size` bytes until a read returns the
empty chunk.  With `block_size = 0` the very first read returns `b""` and
the loop body never runs. -/
def readChunks (bs : Nat) (c : List Nat) : List (List Nat) :=
  readChunksFuel bs c.length c

/-- `hash_md5.update(chunk)` (line 18): the incremental accumulator state is
the byte sequence fed so far; an update appends the chunk. -/
def md5_update (st chunk : List Nat) : List Nat := st ++ chunk

/-- `md5` (lines 13-21): open the file, feed it block by block into the
accumulator, and return `(filepath, some digest)`; on any exception return
`(filepath, none)`.  The digest function `hashFn` abstracts
`hashlib.md5(...).hexdigest()`: a pure function of the accumulated bytes. -/
def md5 (hashFn : List Nat → Nat) (fs : List Entry) (filepath : String) (block_size : Nat) :
    String × Option Nat :=
  match readFile fs filepath with
  | some data => (filepath, some (hashFn ((readChunks block_size data).foldl md5_update [])))
  | none => (filepath, none)

/-- One iteration of the `as_completed` consumer loop (lines 45-51):
increment `done`, and when the completed job's digest is present append the
path under that digest; a job with no digest only advances `done`. -/
def classifier_step (hashFn : List Nat → Nat) (fs : List Entry)
    (st : Nat × List (Nat × List String)) (file : String) : Nat × List (Nat × List String) :=
  let done := st.1 + 1
  let result := md5 hashFn fs file 65536
  match result.2 with
  | some filehash => (done, addToBucket st.2 filehash result.1)
  | none => (done, st.2)

/-- The state (`done`, `hash_map`) after the consumer loop has drained the
whole completion stream.  `completions` is the order in which
`as_completed` yields the jobs: an arbitrary permutation of the submitted
list. -/
def hash_groups_state (hashFn : List Nat → Nat) (fs : List Entry) (completions : List String) :
    Nat × List (Nat × List String) :=
  completions.foldl (classifier_step hashFn fs) (0, [])

/-- `hash_groups` (lines 34-54), after the pool has drained: the digest map
restricted to buckets with more than one path (line 54). -/
def hash_groups (hashFn : List Nat → Nat) (fs : List Entry) (completions : List String) :
    List (Nat × List String) :=
  ((hash_groups_state hashFn fs completions).2).filter (fun kv => decide (1 < kv.2.length))

/-- The guarded key/value pair one completed job contributes to the digest
map: `some (digest, path)` when hashing succeeded, `none` when it failed
(`if filehash:` on line 50 drops it).  Used to relate the consumer loop to
`buildBuckets`. -/
def hashKV (hashFn : List Nat → Nat) (fs : List Entry) (file : String) : Option (Nat × String) :=
  match (md5 hashFn fs file 65536).2 with
  | some filehash => some (filehash, (md5 hashFn fs file 65536).1)
  | none => none

/-- The job submission loop (lines 41-43): one `executor.submit(md5, file)`
per file of each group, in group order; the futures list is the
concatenation of all groups. -/
def submitted_jobs (groups : List (List String)) : List String :=
  groups.foldl (fun futures group => futures ++ group) []

/-- `save_result` (lines 56-61): for each bucket of the result, in order,
write each member path followed by a newline, then the fixed separator
line.  The accumulated string is everything written to the file. -/
def save_result (duplicates : List (Nat × List String)) : String :=
  duplicates.foldl
    (fun acc kv =>
      kv.2.foldl (fun acc₂ file => acc₂ ++ (file ++ "\n")) acc ++ "================================\n")
    ""

/-- The output format as the spec states it: per bucket, each member path
with a trailing newline, then the separator line; buckets concatenated in
returned order.  Stated independently of the write loop so that
`save_result` can be proved to refine it. -/
def save_result_format (duplicates : List (Nat × List String)) : String :=
  String.join (duplicates.map (fun kv =>
    String.join (kv.2.map (fun file => file ++ "\n")) ++ "================================\n"))

/-- `os.walk(folder)` at the root: with the default `onerror=None`, a
failure to scan the root directory (non-existent or non-traversable root)
is silently swallowed and the walk yields no entries at all; an accessible
root yields its tree. -/
def walk_entries (rootAccessible : Bool) (tree : List Entry) : List Entry :=
  if rootAccessible then tree else []

/-- Replacing every entry's kind, leaving path, size and content alone:
used to state that grouping is oblivious to entry kinds. -/
def relabel (f : Entry → EntryKind) (e : Entry) : Entry :=
  Entry.mk e.path (f e) e.statSize e.content

/-- Two paths land in the same bucket of a classifier result. -/
def sameBucket (result : List (Nat × List String)) (p q : String) : Prop :=
  ∃ kv, kv ∈ result ∧ p ∈ kv.2 ∧ q ∈ kv.2

/-- A path appears in no size bucket of a grouping result. -/
def excludedFromGroups (groups : List (List String)) (p : String) : Prop :=
  ∀ g, g ∈ groups → p ∉ g

/-- A path appears in no digest bucket of a classifier result. -/
def excludedFromResult (result : List (Nat × List String)) (p : String) : Prop :=
  ∀ kv, kv ∈ result → p ∉ kv.2

/-- An injective code of byte lists, standing in for a collision-free
digest in concrete instantiations. -/
def listCode : List Nat → Nat
  | [] => 0
  | a :: l => Nat.succ (Nat.pair a (listCode l))

/-! ### Concrete scenario used by the witnesses

Files `a` and `b` share content, `c` has a different content of the same
size, `d` has a size shared by nobody, `e` cannot be stat'ed, `f` can be
stat'ed but not read.  `exComps` is one completion order of the submitted
jobs (their reversal). -/

def exA : Entry := Entry.mk "a" EntryKind.regular (some 2) (some [0, 0])

def exB : Entry := Entry.mk "b" EntryKind.regular (some 2) (some [0, 0])

def exC : Entry := Entry.mk "c" EntryKind.regular (some 2) (some [1, 1])

def exD : Entry := Entry.mk "d" EntryKind.regular (some 7) (some [5, 5, 5, 5, 5, 5, 5])

def exE : Entry := Entry.mk "e" EntryKind.regular none none

def exF : Entry := Entry.mk "f" EntryKind.regular (some 2) none

def exFS : List Entry := [exA, exB, exC, exD, exE, exF]

def exComps : List String := ["f", "c", "b", "a"]

/-- The one digest bucket of the final result on `exFS`: `listCode [0, 0] = 2`
and the completion order `exComps` inserts `b` before `a`. -/
def exKV : Nat × List String := (2, ["b", "a"])

/-- A regular file and a symlink of the same size, for the claims about
entry kinds. -/
def exReg : Entry := Entry.mk "t1" EntryKind.regular (some 5) (some [1, 2, 3, 4, 5])

def exLink : Entry := Entry.mk "s1" EntryKind.symlink (some 5) (some [1, 2, 3, 4, 5])

def exLinkFS : List Entry := [exReg, exLink]

/-! ### Lemmas about ordered bucket maps -/

theorem lookupB_addToBucket {α β : Type} [DecidableEq α] (m : List (α × List β)) (k k₂ : α)
    (v : β) :
    lookupB (addToBucket m k v) k₂ = lookupB m k₂ ++ (if k = k₂ then [v] else []) := by
  induction m with
  | nil => by_cases h : k = k₂ <;> simp [addToBucket, lookupB, h]
  | cons kv rest ih =>
    obtain ⟨a, vs⟩ := kv
    by_cases hak : a = k
    · subst hak
      by_cases hk : a = k₂ <;> simp [addToBucket, lookupB, hk]
    · by_cases hk : a = k₂
      · subst hk
        have hka : k ≠ a := fun h => hak h.symm
        simp [addToBucket, lookupB, hak, hka]
      · simp [addToBucket, lookupB, hak, hk, ih]

theorem lookupB_foldl {α β : Type} [DecidableEq α] (l : List (α × β)) :
    ∀ (m : List (α × List β)) (k : α),
      lookupB (l.foldl (fun m kv => addToBucket m kv.1 kv.2) m) k
        = lookupB m k ++ (l.filter (fun kv => decide (kv.1 = k))).map (fun kv => kv.2) := by
  induction l with
  | nil => intro m k; simp
  | cons kv rest ih =>
    intro m k
    simp only [List.foldl_cons, List.filter_cons]
    rw [ih]
    by_cases h : kv.1 = k
    · simp [h, lookupB_addToBucket, List.append_assoc]
    · simp [h, lookupB_addToBucket]

theorem lookupB_buildBuckets {α β : Type} [DecidableEq α] (l : List (α × β)) (k : α) :
    lookupB (buildBuckets l) k
      = (l.filter (fun kv => decide (kv.1 = k))).map (fun kv => kv.2) := by
  rw [buildBuckets, lookupB_foldl]
  simp [lookupB]

theorem mem_lookupB_buildBuckets {α β : Type} [DecidableEq α] (l : List (α × β)) (k : α) (x : β) :
    x ∈ lookupB (buildBuckets l) k ↔ (k, x) ∈ l := by
  rw [lookupB_buildBuckets]
  simp only [List.mem_map, List.mem_filter, decide_eq_true_eq]
  constructor
  · rintro ⟨kv, ⟨hm, hk⟩, hv⟩
    have hkv : kv = (k, x) := by
      cases kv
      simp_all
    rwa [hkv] at hm
  · intro h
    exact ⟨(k, x), ⟨h, rfl⟩, rfl⟩

theorem bucketKeys_addToBucket {α β : Type} [DecidableEq α] (m : List (α × List β)) (k : α)
    (v : β) :
    bucketKeys (addToBucket m k v)
      = if k ∈ bucketKeys m then bucketKeys m else bucketKeys m ++ [k] := by
  induction m with
  | nil => simp [addToBucket, bucketKeys]
  | cons kv rest ih =>
    obtain ⟨a, vs⟩ := kv
    by_cases hak : a = k
    · subst hak
      simp [addToBucket, bucketKeys]
    · have hka : k ≠ a := fun h => hak h.symm
      simp only [addToBucket, if_neg hak, bucketKeys, List.map_cons] at ih ⊢
      rw [ih]
      by_cases hmem : k ∈ rest.map (fun kv => kv.1) <;> simp [hmem, hka]

theorem nodup_bucketKeys_addToBucket {α β : Type} [DecidableEq α] {m : List (α × List β)}
    (k : α) (v : β) (h : (bucketKeys m).Nodup) : (bucketKeys (addToBucket m k v)).Nodup := by
  rw [bucketKeys_addToBucket]
  by_cases hmem : k ∈ bucketKeys m
  · simpa [hmem]
  · simp [hmem, List.nodup_append, h]

theorem nodup_bucketKeys_buildBuckets {α β : Type} [DecidableEq α] (l : List (α × β)) :
    (bucketKeys (buildBuckets l)).Nodup := by
  suffices h : ∀ m : List (α × List β), (bucketKeys m).Nodup →
      (bucketKeys (l.foldl (fun m kv => addToBucket m kv.1 kv.2) m)).Nodup by
    exact h [] (by simp [bucketKeys])
  induction l with
  | nil => intro m hm; simpa
  | cons kv rest ih =>
    intro m hm
    exact ih _ (nodup_bucketKeys_addToBucket _ _ hm)

theorem lookupB_of_mem {α β : Type} [DecidableEq α] {m : List (α × List β)} {k : α}
    {vs : List β} (hnd : (bucketKeys m).Nodup) (h : (k, vs) ∈ m) : lookupB m k = vs := by
  induction m with
  | nil => simp at h
  | cons kv rest ih =>
    obtain ⟨a, ws⟩ := kv
    rcases List.mem_cons.mp h with h₁ | h₂
    · obtain ⟨hk, hv⟩ := Prod.mk.injEq _ _ _ _ ▸ h₁
      subst hk
      subst hv
      simp [lookupB]
    · have hkrest : k ∈ bucketKeys rest := by
        simpa [bucketKeys] using List.mem_map_of_mem (fun kv => kv.1) h₂
      have hank : a ≠ k := by
        intro hak
        subst hak
        exact (List.nodup_cons.mp (by simpa [bucketKeys] using hnd)).1 hkrest
      simp only [lookupB, if_neg hank]
      exact ih (by simpa [bucketKeys] using (List.nodup_cons.mp
        (by simpa [bucketKeys] using hnd)).2) h₂

theorem mem_of_lookupB {α β : Type} [DecidableEq α] {m : List (α × List β)} {k : α}
    {vs : List β} (h : lookupB m k = vs) (hne : vs ≠ []) : (k, vs) ∈ m := by
  induction m with
  | nil =>
    rw [lookupB] at h
    exact absurd h.symm hne
  | cons kv rest ih =>
    obtain ⟨a, ws⟩ := kv
    by_cases hak : a = k
    · subst hak
      rw [lookupB, if_pos rfl] at h
      subst h
      exact List.mem_cons_self _ _
    · rw [lookupB, if_neg hak] at h
      exact List.mem_cons_of_mem _ (ih h)

theorem mem_buildBuckets_val {α β : Type} [DecidableEq α] {l : List (α × β)} {k : α}
    {vs : List β} (h : (k, vs) ∈ buildBuckets l) :
    vs = (l.filter (fun kv => decide (kv.1 = k))).map (fun kv => kv.2) := by
  rw [← lookupB_buildBuckets]
  exact (lookupB_of_mem (nodup_bucketKeys_buildBuckets l) h).symm

theorem mem_of_mem_buildBuckets {α β : Type} [DecidableEq α] {l : List (α × β)} {k : α}
    {vs : List β} {x : β} (h : (k, vs) ∈ buildBuckets l) (hx : x ∈ vs) : (k, x) ∈ l := by
  rw [mem_buildBuckets_val h, ← lookupB_buildBuckets] at hx
  exact (mem_lookupB_buildBuckets l k x).mp hx

/-! ### Relating the source loops to `buildBuckets` -/

theorem group_fold_eq (entries : List Entry) :
    ∀ m : List (Int × List String),
      entries.foldl
          (fun m e => if 0 ≤ get_file_size e then addToBucket m (get_file_size e) e.path else m) m
        = (entries.filterMap sizeKV).foldl (fun m kv => addToBucket m kv.1 kv.2) m := by
  induction entries with
  | nil => intro m; rfl
  | cons e rest ih =>
    intro m
    by_cases h : 0 ≤ get_file_size e
    · rw [List.foldl_cons, if_pos h,
        List.filterMap_cons_some (by simp [sizeKV, h] : sizeKV e = some (get_file_size e, e.path)),
        List.foldl_cons]
      exact ih _
    · rw [List.foldl_cons, if_neg h,
        List.filterMap_cons_none (by simp [sizeKV, h] : sizeKV e = none)]
      exact ih _

theorem group_by_size_eq (fs : List Entry) :
    group_by_size fs
      = ((buildBuckets (fs.filterMap sizeKV)).map (fun kv => kv.2)).filter
          (fun files => decide (1 < files.length)) := by
  rw [group_by_size, buildBuckets, group_fold_eq]

theorem hash_state_fold (hashFn : List Nat → Nat) (fs : List Entry) (completions : List String) :
    ∀ (n : Nat) (m : List (Nat × List String)),
      completions.foldl (classifier_step hashFn fs) (n, m)
        = (n + completions.length,
            (completions.filterMap (hashKV hashFn fs)).foldl
              (fun m kv => addToBucket m kv.1 kv.2) m) := by
  induction completions with
  | nil => intro n m; simp
  | cons file rest ih =>
    intro n m
    rw [List.foldl_cons]
    rcases hmd : (md5 hashFn fs file 65536).2 with _ | filehash
    · have hstep : classifier_step hashFn fs (n, m) file = (n + 1, m) := by
        simp [classifier_step, hmd]
      have hkv : hashKV hashFn fs file = none := by simp [hashKV, hmd]
      rw [hstep, ih, List.filterMap_cons_none hkv]
      simp only [List.length_cons, Prod.mk.injEq]
      exact ⟨by omega, trivial⟩
    · have hstep : classifier_step hashFn fs (n, m) file
          = (n + 1, addToBucket m filehash (md5 hashFn fs file 65536).1) := by
        simp [classifier_step, hmd]
      have hkv : hashKV hashFn fs file = some (filehash, (md5 hashFn fs file 65536).1) := by
        simp [hashKV, hmd]
      rw [hstep, ih, List.filterMap_cons_some hkv, List.foldl_cons]
      simp only [List.length_cons, Prod.mk.injEq]
      exact ⟨by omega, trivial⟩

theorem hash_groups_state_eq (hashFn : List Nat → Nat) (fs : List Entry)
    (completions : List String) :
    hash_groups_state hashFn fs completions
      = (completions.length, buildBuckets (completions.filterMap (hashKV hashFn fs))) := by
  rw [hash_groups_state, buildBuckets, hash_state_fold]
  simp

theorem hash_groups_eq (hashFn : List Nat → Nat) (fs : List Entry) (completions : List String) :
    hash_groups hashFn fs completions
      = (buildBuckets (completions.filterMap (hashKV hashFn fs))).filter
          (fun kv => decide (1 < kv.2.length)) := by
  rw [hash_groups, hash_groups_state_eq]

theorem foldl_append_lists {α : Type} (L : List (List α)) :
    ∀ acc : List α, L.foldl (fun a g => a ++ g) acc = acc ++ L.flatten := by
  induction L with
  | nil => intro acc; simp
  | cons g rest ih => intro acc; simp [ih, List.append_assoc]

theorem submitted_jobs_eq (groups : List (List String)) : submitted_jobs groups = groups.flatten := by
  simp [submitted_jobs, foldl_append_lists]

/-! ### The chunked digest -/

theorem readChunksFuel_flatten (bs : Nat) (hbs : 0 < bs) :
    ∀ (fuel : Nat) (c : List Nat), c.length ≤ fuel → (readChunksFuel bs fuel c).flatten = c := by
  intro fuel
  induction fuel with
  | zero =>
    intro c hc
    cases c with
    | nil => simp [readChunksFuel]
    | cons x xs => simp at hc
  | succ n ih =>
    intro c hc
    cases c with
    | nil => simp [readChunksFuel]
    | cons x xs =>
      simp only [readChunksFuel, if_neg (by omega : ¬bs = 0), List.flatten_cons]
      rw [ih ((x :: xs).drop bs)
        (by simp only [List.length_drop, List.length_cons] at hc ⊢; omega)]
      exact List.take_append_drop _ _

theorem readChunks_join (bs : Nat) (hbs : 0 < bs) (c : List Nat) :
    (readChunks bs c).flatten = c :=
  readChunksFuel_flatten bs hbs c.length c (Nat.le_refl _)

theorem foldl_md5_update (L : List (List Nat)) :
    ∀ acc : List Nat, L.foldl md5_update acc = acc ++ L.flatten := by
  induction L with
  | nil => intro acc; simp
  | cons chunk rest ih => intro acc; simp [md5_update, ih, List.append_assoc]

theorem md5_eq_some (hashFn : List Nat → Nat) (fs : List Entry) (p : String) (bs : Nat)
    (c : List Nat) (hbs : 0 < bs) (hc : readFile fs p = some c) :
    md5 hashFn fs p bs = (p, some (hashFn c)) := by
  simp only [md5, hc]
  rw [foldl_md5_update, readChunks_join bs hbs]
  simp

theorem md5_eq_none (hashFn : List Nat → Nat) (fs : List Entry) (p : String) (bs : Nat)
    (hc : readFile fs p = none) : md5 hashFn fs p bs = (p, none) := by
  simp only [md5, hc]

theorem md5_fst (hashFn : List Nat → Nat) (fs : List Entry) (p : String) (bs : Nat) :
    (md5 hashFn fs p bs).1 = p := by
  rcases h : readFile fs p with _ | c <;> simp [md5, h]

/-! ### Job results -/

theorem hashKV_eq_some (hashFn : List Nat → Nat) (fs : List Entry) (p : String) (c : List Nat)
    (hc : readFile fs p = some c) : hashKV hashFn fs p = some (hashFn c, p) := by
  rw [hashKV, md5_eq_some hashFn fs p 65536 c (by omega) hc]

theorem hashKV_eq_none (hashFn : List Nat → Nat) (fs : List Entry) (p : String)
    (hc : readFile fs p = none) : hashKV hashFn fs p = none := by
  rw [hashKV, md5_eq_none hashFn fs p 65536 hc]

theorem hashKV_val {hashFn : List Nat → Nat} {fs : List Entry} {p : String} {kv : Nat × String}
    (h : hashKV hashFn fs p = some kv) : kv.2 = p := by
  rw [hashKV] at h
  rcases hm : (md5 hashFn fs p 65536).2 with _ | d <;> rw [hm] at h
  · simp at h
  · simp only [Option.some.injEq] at h
    rw [← h]
    exact md5_fst hashFn fs p 65536

theorem mem_completions_of_hash_pair {hashFn : List Nat → Nat} {fs : List Entry}
    {completions : List String} {k : Nat} {x : String}
    (h : (k, x) ∈ completions.filterMap (hashKV hashFn fs)) : x ∈ completions := by
  rcases List.mem_filterMap.mp h with ⟨file, hfile, hkv⟩
  have hx : x = file := hashKV_val hkv
  rwa [hx]

theorem hash_pair_inv {hashFn : List Nat → Nat} {fs : List Entry} {completions : List String}
    {k : Nat} {x : String} (h : (k, x) ∈ completions.filterMap (hashKV hashFn fs)) :
    ∃ c, readFile fs x = some c ∧ hashFn c = k := by
  rcases List.mem_filterMap.mp h with ⟨file, hfile, hkv⟩
  have hx : x = file := hashKV_val hkv
  subst hx
  rcases hread : readFile fs x with _ | c
  · rw [hashKV_eq_none hashFn fs x hread] at hkv
    simp at hkv
  · rw [hashKV_eq_some hashFn fs x c hread] at hkv
    simp only [Option.some.injEq, Prod.mk.injEq] at hkv
    exact ⟨c, rfl, hkv.1⟩

theorem size_pair_inv {fs : List Entry} {k : Int} {x : String}
    (h : (k, x) ∈ fs.filterMap sizeKV) :
    ∃ e, e ∈ fs ∧ e.path = x ∧ get_file_size e = k ∧ 0 ≤ k := by
  rcases List.mem_filterMap.mp h with ⟨e, he, hkv⟩
  rw [sizeKV] at hkv
  by_cases hs : 0 ≤ get_file_size e
  · rw [if_pos hs] at hkv
    simp only [Option.some.injEq, Prod.mk.injEq] at hkv
    exact ⟨e, he, hkv.2, hkv.1, hkv.1 ▸ hs⟩
  · rw [if_neg hs] at hkv
    simp at hkv

/-! ### Membership in the grouper's output -/

theorem mem_group_by_size {fs : List Entry} {g : List String} (h : g ∈ group_by_size fs) :
    (∃ k, (k, g) ∈ buildBuckets (fs.filterMap sizeKV)) ∧ 1 < g.length := by
  rw [group_by_size_eq] at h
  rcases List.mem_filter.mp h with ⟨hmem, hlen⟩
  rcases List.mem_map.mp hmem with ⟨kv, hkv, heq⟩
  refine ⟨⟨kv.1, ?_⟩, by simpa using hlen⟩
  obtain ⟨a, b⟩ := kv
  cases heq
  exact hkv

theorem mem_flatten_group_by_size {fs : List Entry} {x : String}
    (h : x ∈ (group_by_size fs).flatten) : ∃ k, (k, x) ∈ fs.filterMap sizeKV := by
  rcases List.mem_flatten.mp h with ⟨g, hg, hx⟩
  rcases (mem_group_by_size hg).1 with ⟨k, hkg⟩
  exact ⟨k, mem_of_mem_buildBuckets hkg hx⟩

theorem not_mem_groups_of_statSize_none {fs : List Entry} {e : Entry}
    (hnodup : (fs.map (fun e => e.path)).Nodup) (he : e ∈ fs) (hs : e.statSize = none) :
    ∀ g, g ∈ group_by_size fs → e.path ∉ g := by
  intro g hg hmem
  rcases (mem_group_by_size hg).1 with ⟨k, hkg⟩
  have hpair := mem_of_mem_buildBuckets hkg hmem
  rcases size_pair_inv hpair with ⟨e₂, he₂, hpath, hsize, hk⟩
  have he₂e : e₂ = e := List.inj_on_of_nodup_map hnodup he₂ he hpath
  subst he₂e
  simp only [get_file_size, hs] at hsize
  omega

theorem group_by_size_relabel (f : Entry → EntryKind) (fs : List Entry) :
    group_by_size (fs.map (relabel f)) = group_by_size fs := by
  rw [group_by_size, group_by_size, List.foldl_map]
  rfl

/-! ### Small utilities -/

theorem one_lt_length_of_two_mem {α : Type} {l : List α} {a b : α}
    (ha : a ∈ l) (hb : b ∈ l) (hab : a ≠ b) : 1 < l.length := by
  cases l with
  | nil => simp at ha
  | cons x rest =>
    cases rest with
    | nil =>
      simp at ha hb
      exact absurd (ha.trans hb.symm) hab
    | cons y rest₂ =>
      simp only [List.length_cons]
      omega

theorem length_le_one_of_nodup_const {α : Type} {l : List α} {a : α}
    (hnd : l.Nodup) (hall : ∀ x, x ∈ l → x = a) : l.length ≤ 1 := by
  cases l with
  | nil => simp
  | cons x rest =>
    cases rest with
    | nil => simp
    | cons y rest₂ =>
      have hx : x = a := hall x (by simp)
      have hy : y = a := hall y (by simp)
      subst hx
      subst hy
      rw [List.nodup_cons] at hnd
      exact absurd (List.mem_cons_self _ _) hnd.1

theorem filterMap_map_snd_sublist {α κ β : Type} (f : α → Option (κ × β)) (g : α → β)
    (H : ∀ a kv, f a = some kv → kv.2 = g a) :
    ∀ l : List α, ((l.filterMap f).map (fun kv => kv.2)).Sublist (l.map g) := by
  intro l
  induction l with
  | nil => simp
  | cons a rest ih =>
    rcases hf : f a with _ | kv
    · rw [List.filterMap_cons_none hf, List.map_cons]
      exact ih.trans (List.sublist_cons_self _ _)
    · rw [List.filterMap_cons_some hf, List.map_cons, List.map_cons, H a kv hf]
      exact List.Sublist.cons₂ _ ih

theorem nodup_sizeKV_values {fs : List Entry}
    (hnodup : (fs.map (fun e => e.path)).Nodup) :
    ((fs.filterMap sizeKV).map (fun kv => kv.2)).Nodup := by
  refine (filterMap_map_snd_sublist sizeKV (fun e => e.path) ?_ fs).nodup hnodup
  intro e kv h
  rw [sizeKV] at h
  by_cases hs : 0 ≤ get_file_size e
  · rw [if_pos hs] at h
    simp only [Option.some.injEq] at h
    rw [← h]
  · rw [if_neg hs] at h
    simp at h

theorem nodup_group {fs : List Entry} {k : Int} {g : List String}
    (hnodup : (fs.map (fun e => e.path)).Nodup)
    (hkg : (k, g) ∈ buildBuckets (fs.filterMap sizeKV)) : g.Nodup := by
  rw [mem_buildBuckets_val hkg]
  exact (List.Sublist.map _ (List.filter_sublist _)).nodup (nodup_sizeKV_values hnodup)

/-! ### String concatenation -/

theorem string_join_cons (s : String) (l : List String) :
    String.join (s :: l) = s ++ String.join l := by
  apply String.ext
  simp [String.join_eq, String.data_append]

theorem foldl_string_append (l : List String) :
    ∀ acc : String, l.foldl (fun a s => a ++ s) acc = acc ++ String.join l := by
  induction l with
  | nil =>
    intro acc
    apply String.ext
    simp [String.join_eq, String.data_append]
  | cons s rest ih =>
    intro acc
    rw [List.foldl_cons, ih, string_join_cons, ← String.append_assoc]

theorem save_result_fold (dups : List (Nat × List String)) :
    ∀ acc : String,
      dups.foldl (fun acc kv =>
          kv.2.foldl (fun acc₂ file => acc₂ ++ (file ++ "\n")) acc
            ++ "================================\n") acc
        = acc ++ save_result_format dups := by
  induction dups with
  | nil =>
    intro acc
    apply String.ext
    simp [save_result_format, String.join_eq, String.data_append]
  | cons kv rest ih =>
    intro acc
    rw [List.foldl_cons, ih]
    have hinner : kv.2.foldl (fun acc₂ file => acc₂ ++ (file ++ "\n")) acc
        = acc ++ String.join (kv.2.map (fun file => file ++ "\n")) := by
      rw [← List.foldl_map (fun file => file ++ "\n") (fun a s => a ++ s) kv.2 acc]
      exact foldl_string_append _ _
    rw [hinner]
    simp only [save_result_format, List.map_cons, string_join_cons]
    simp [String.append_assoc]

/-! ### The injective byte-list code -/

theorem listCode_injective : Function.Injective listCode := by
  intro l₁
  induction l₁ with
  | nil =>
    intro l₂ h
    cases l₂ with
    | nil => rfl
    | cons b t => simp [listCode] at h
  | cons a t ih =>
    intro l₂ h
    cases l₂ with
    | nil => simp [listCode] at h
    | cons b t₂ =>
      simp only [listCode, Nat.succ.injEq] at h
      rcases Nat.pair_eq_pair.mp h with ⟨h₁, h₂⟩
      rw [h₁, ih h₂]

/-! ### The claims -/

/-- C1: for every pair of distinct files with identical byte content that
are both successfully read and hashed and that belong to candidate size
buckets (so both are submitted for hashing), both paths appear in the same
digest bucket of the Classifier's final result, for every completion order
of the submitted jobs — hence regardless of the order in which size buckets
or jobs are processed. -/
theorem identical_content_same_bucket (hashFn : List Nat → Nat) (fs : List Entry)
    (completions : List String) (p q : String) (c : List Nat)
    (hperm : completions.Perm (submitted_jobs (group_by_size fs)))
    (hp : p ∈ submitted_jobs (group_by_size fs))
    (hq : q ∈ submitted_jobs (group_by_size fs))
    (hpq : p ≠ q)
    (hcp : readFile fs p = some c) (hcq : readFile fs q = some c) :
    sameBucket (hash_groups hashFn fs completions) p q := by
  have hpc : p ∈ completions := hperm.mem_iff.mpr hp
  have hqc : q ∈ completions := hperm.mem_iff.mpr hq
  have hpp : (hashFn c, p) ∈ completions.filterMap (hashKV hashFn fs) :=
    List.mem_filterMap.mpr ⟨p, hpc, hashKV_eq_some hashFn fs p c hcp⟩
  have hqp : (hashFn c, q) ∈ completions.filterMap (hashKV hashFn fs) :=
    List.mem_filterMap.mpr ⟨q, hqc, hashKV_eq_some hashFn fs q c hcq⟩
  set l := completions.filterMap (hashKV hashFn fs) with hl
  have hpl : p ∈ lookupB (buildBuckets l) (hashFn c) := (mem_lookupB_buildBuckets l _ p).mpr hpp
  have hql : q ∈ lookupB (buildBuckets l) (hashFn c) := (mem_lookupB_buildBuckets l _ q).mpr hqp
  have hne : lookupB (buildBuckets l) (hashFn c) ≠ [] := by
    intro h₀
    rw [h₀] at hpl
    simp at hpl
  have hmem : (hashFn c, lookupB (buildBuckets l) (hashFn c)) ∈ buildBuckets l :=
    mem_of_lookupB rfl hne
  have hlen : 1 < (lookupB (buildBuckets l) (hashFn c)).length :=
    one_lt_length_of_two_mem hpl hql hpq
  refine ⟨(hashFn c, lookupB (buildBuckets l) (hashFn c)), ?_, hpl, hql⟩
  rw [hash_groups_eq]
  exact List.mem_filter.mpr ⟨hmem, by simpa using hlen⟩

/-- Witness for C1: in the concrete scenario, `a` and `b` share the content
`[0, 0]` and land in the same digest bucket under the reversed completion
order `exComps`. -/
theorem identical_content_same_bucket_witness :
    sameBucket (hash_groups listCode exFS exComps) "a" "b" :=
  identical_content_same_bucket listCode exFS exComps "a" "b" [0, 0]
    (by decide) (by decide) (by decide) (by decide) (by decide) (by decide)

/-- C2: for every pair of files of identical byte size but different byte
content, no digest bucket of the final result contains both paths (the size
phase alone never introduces a false positive), provided the digest
function is collision-free on the contents involved (injectivity models
MD5's practical collision-freeness, which the code relies on). -/
theorem same_size_different_content_not_same_bucket (hashFn : List Nat → Nat) (fs : List Entry)
    (completions : List String) (p q : String) (c₁ c₂ : List Nat) (kv : Nat × List String)
    (hinj : Function.Injective hashFn)
    (hperm : completions.Perm (submitted_jobs (group_by_size fs)))
    (hcp : readFile fs p = some c₁) (hcq : readFile fs q = some c₂)
    (hlen : c₁.length = c₂.length) (hne : c₁ ≠ c₂)
    (hkv : kv ∈ hash_groups hashFn fs completions) :
    ¬(p ∈ kv.2 ∧ q ∈ kv.2) := by
  rintro ⟨hp, hq⟩
  rw [hash_groups_eq] at hkv
  have hkv₂ := (List.mem_filter.mp hkv).1
  obtain ⟨k, vs⟩ := kv
  have hpp := mem_of_mem_buildBuckets hkv₂ hp
  have hqp := mem_of_mem_buildBuckets hkv₂ hq
  rcases hash_pair_inv hpp with ⟨c₁', hc₁', hh₁⟩
  rcases hash_pair_inv hqp with ⟨c₂', hc₂', hh₂⟩
  rw [hcp] at hc₁'
  rw [hcq] at hc₂'
  injection hc₁' with e₁
  injection hc₂' with e₂
  rw [← e₁] at hh₁
  rw [← e₂] at hh₂
  exact hne (hinj (hh₁.trans hh₂.symm))

/-- Witness for C2: `a` (content `[0, 0]`) and `c` (content `[1, 1]`, same
size) are not both members of the one digest bucket of the final result. -/
theorem same_size_different_content_witness :
    ¬(("a" : String) ∈ exKV.2 ∧ ("c" : String) ∈ exKV.2) :=
  same_size_different_content_not_same_bucket listCode exFS exComps "a" "c" [0, 0] [1, 1] exKV
    listCode_injective (by decide) (by decide) (by decide) (by decide) (by decide) (by decide)

/-- C3: a file whose byte size is shared by no other file of the tree never
appears in the final result: its size bucket is a singleton, discarded by
the Grouper after the full walk, so the path is never submitted for hashing
and no digest bucket of the final result contains it. -/
theorem unique_size_excluded (hashFn : List Nat → Nat) (fs : List Entry)
    (completions : List String) (e : Entry) (s : Nat)
    (hnodup : (fs.map (fun e => e.path)).Nodup)
    (he : e ∈ fs) (hs : e.statSize = some s)
    (huniq : ∀ e₂, e₂ ∈ fs → e₂.path ≠ e.path → e₂.statSize ≠ some s)
    (hperm : completions.Perm (submitted_jobs (group_by_size fs))) :
    excludedFromResult (hash_groups hashFn fs completions) e.path := by
  intro kv hkv hmem
  rw [hash_groups_eq] at hkv
  have hkv₂ := (List.mem_filter.mp hkv).1
  obtain ⟨k, vs⟩ := kv
  have hpair := mem_of_mem_buildBuckets hkv₂ hmem
  have hcomp : e.path ∈ completions := mem_completions_of_hash_pair hpair
  have hsub : e.path ∈ (group_by_size fs).flatten := by
    have hmem₂ := hperm.mem_iff.mp hcomp
    rwa [submitted_jobs_eq] at hmem₂
  rcases List.mem_flatten.mp hsub with ⟨g, hg, hxg⟩
  rcases mem_group_by_size hg with ⟨⟨k₂, hk₂g⟩, hglen⟩
  have hkey : k₂ = ((s : Nat) : Int) := by
    have hp := mem_of_mem_buildBuckets hk₂g hxg
    rcases size_pair_inv hp with ⟨e₂, he₂, hpath, hsize, hpos⟩
    have he₂e : e₂ = e := List.inj_on_of_nodup_map hnodup he₂ he hpath
    subst he₂e
    simp only [get_file_size, hs] at hsize
    exact hsize.symm
  have hall : ∀ x, x ∈ g → x = e.path := by
    intro x hx
    have hp := mem_of_mem_buildBuckets hk₂g hx
    rcases size_pair_inv hp with ⟨e₃, he₃, hpath, hsize, hpos⟩
    by_cases hx₃ : e₃.path = e.path
    · rw [← hpath]
      exact hx₃
    · exfalso
      subst hkey
      have hstat : e₃.statSize = some s := by
        rcases h₃ : e₃.statSize with _ | n
        · simp only [get_file_size, h₃] at hsize
          omega
        · simp only [get_file_size, h₃] at hsize
          have hn : n = s := by exact_mod_cast hsize
          rw [hn]
      exact huniq e₃ he₃ hx₃ hstat
  have hnd : g.Nodup := nodup_group hnodup hk₂g
  have hle := length_le_one_of_nodup_const hnd hall
  omega

/-- Witness for C3: `d` is the only file of size 7 in the concrete scenario
and appears in no digest bucket of the final result. -/
theorem unique_size_excluded_witness :
    excludedFromResult (hash_groups listCode exFS exComps) exD.path :=
  unique_size_excluded listCode exFS exComps exD 7 (by decide) (by decide) (by decide)
    (by decide) (by decide)

/-- C4: a file whose size cannot be stat'ed during the walk is excluded
from every size bucket; a file whose content cannot be read during hashing
is excluded from every digest bucket of the final result (no partial digest
is ever recorded for it); and the failure never aborts the run: both phases
are total functions, and every other successfully read job is still
recorded in the digest map. -/
theorem unreadable_excluded (hashFn : List Nat → Nat) (fs : List Entry)
    (completions : List String) (e : Entry) (p q : String) (c : List Nat)
    (hnodup : (fs.map (fun e => e.path)).Nodup)
    (he : e ∈ fs) (hstat : e.statSize = none)
    (hread : readFile fs p = none)
    (hq : q ∈ completions) (hqc : readFile fs q = some c) :
    excludedFromGroups (group_by_size fs) e.path ∧
      excludedFromResult (hash_groups hashFn fs completions) p ∧
      q ∈ lookupB (hash_groups_state hashFn fs completions).2 (hashFn c) := by
  refine ⟨not_mem_groups_of_statSize_none hnodup he hstat, ?_, ?_⟩
  · intro kv hkv hmem
    rw [hash_groups_eq] at hkv
    have hkv₂ := (List.mem_filter.mp hkv).1
    obtain ⟨k, vs⟩ := kv
    have hpair := mem_of_mem_buildBuckets hkv₂ hmem
    rcases hash_pair_inv hpair with ⟨c₂, hc₂, hh⟩
    rw [hread] at hc₂
    simp at hc₂
  · have hpp : (hashFn c, q) ∈ completions.filterMap (hashKV hashFn fs) :=
      List.mem_filterMap.mpr ⟨q, hq, hashKV_eq_some hashFn fs q c hqc⟩
    rw [hash_groups_state_eq]
    exact (mem_lookupB_buildBuckets _ _ q).mpr hpp

/-- Witness for C4: `e` (stat fails) is in no size bucket, `f` (read fails)
is in no digest bucket, and `a` is still recorded under its digest. -/
theorem unreadable_excluded_witness :
    excludedFromGroups (group_by_size exFS) exE.path ∧
      excludedFromResult (hash_groups listCode exFS exComps) "f" ∧
      ("a" : String) ∈ lookupB (hash_groups_state listCode exFS exComps).2 (listCode [0, 0]) :=
  unreadable_excluded listCode exFS exComps exE "f" "a" [0, 0] (by decide) (by decide)
    (by decide) (by decide) (by decide) (by decide)

/-- C5 counterexample: the claim says a failure to access the root is a
fatal, caller-visible error distinguishable from the empty-result outcome.
It is not: at the concrete tree `exFS` behind an inaccessible root, both
phases return exactly the result they return for an accessible empty tree —
`os.walk`'s default error handling swallows the root failure and there is
no error channel at all in the return type. -/
theorem root_failure_counterexample :
    group_by_size (walk_entries false exFS) = group_by_size (walk_entries true []) ∧
      hash_groups listCode (walk_entries false exFS)
          (submitted_jobs (group_by_size (walk_entries false exFS)))
        = hash_groups listCode (walk_entries true [])
            (submitted_jobs (group_by_size (walk_entries true []))) := by
  decide

/-- C5 amended: a failure to access the root path is silently swallowed by
the walk (the default `os.walk` error handling), so the run returns the
empty result — identical to the outcome for an accessible tree with no
duplicate candidates; it is not a caller-visible error. -/
theorem root_failure_silent (tree : List Entry) (hashFn : List Nat → Nat)
    (completions : List String) :
    group_by_size (walk_entries false tree) = group_by_size (walk_entries true []) ∧
      hash_groups hashFn (walk_entries false tree) completions = [] := by
  refine ⟨rfl, ?_⟩
  have hnil : completions.filterMap (hashKV hashFn (walk_entries false tree)) = [] := by
    rw [List.filterMap_eq_nil_iff]
    intro a ha
    exact hashKV_eq_none hashFn _ a rfl
  rw [hash_groups_eq, hnil]
  rfl

/-- C6: every bucket retained past its producing phase has at least two
member paths: every size bucket returned by the Grouper and every digest
bucket of the Classifier's final result. -/
theorem retained_buckets_have_two (hashFn : List Nat → Nat) (fs : List Entry)
    (completions : List String) (g : List String) (kv : Nat × List String)
    (hg : g ∈ group_by_size fs) (hkv : kv ∈ hash_groups hashFn fs completions) :
    1 < g.length ∧ 1 < kv.2.length := by
  refine ⟨(mem_group_by_size hg).2, ?_⟩
  rw [hash_groups_eq] at hkv
  have hfilter := (List.mem_filter.mp hkv).2
  simpa using hfilter

/-- Witness for C6 at the one size bucket and the one digest bucket of the
concrete scenario. -/
theorem retained_buckets_have_two_witness :
    1 < (["a", "b", "c", "f"] : List String).length ∧ 1 < exKV.2.length :=
  retained_buckets_have_two listCode exFS exComps ["a", "b", "c", "f"] exKV
    (by decide) (by decide)

/-- C7: the number of hashing jobs submitted equals the sum of the sizes of
all size buckets produced by the Grouper; the completed-job counter is
non-decreasing along the completion stream, equals the total submitted
count exactly when every submitted job has completed, and the state the
final result is read from has completed count equal to the total. -/
theorem job_accounting (hashFn : List Nat → Nat) (fs : List Entry)
    (completions : List String) (j k : Nat) (hjk : j ≤ k)
    (hperm : completions.Perm (submitted_jobs (group_by_size fs))) :
    (submitted_jobs (group_by_size fs)).length
        = ((group_by_size fs).map List.length).sum ∧
      (hash_groups_state hashFn fs (completions.take j)).1
        ≤ (hash_groups_state hashFn fs (completions.take k)).1 ∧
      ((hash_groups_state hashFn fs (completions.take k)).1
          = (submitted_jobs (group_by_size fs)).length
        ↔ (submitted_jobs (group_by_size fs)).length ≤ k) ∧
      (hash_groups_state hashFn fs completions).1
        = (submitted_jobs (group_by_size fs)).length := by
  have hlen := hperm.length_eq
  refine ⟨by rw [submitted_jobs_eq]; exact List.length_flatten _, ?_, ?_, ?_⟩
  · rw [hash_groups_state_eq, hash_groups_state_eq]
    show (completions.take j).length ≤ (completions.take k).length
    simp only [List.length_take]
    omega
  · rw [hash_groups_state_eq]
    show (completions.take k).length = _ ↔ _
    simp only [List.length_take]
    omega
  · rw [hash_groups_state_eq]
    show completions.length = _
    omega

/-- Witness for C7 with the prefix lengths 1 and 3 of the concrete
completion order. -/
theorem job_accounting_witness :
    (submitted_jobs (group_by_size exFS)).length = ((group_by_size exFS).map List.length).sum ∧
      (hash_groups_state listCode exFS (exComps.take 1)).1
        ≤ (hash_groups_state listCode exFS (exComps.take 3)).1 ∧
      ((hash_groups_state listCode exFS (exComps.take 3)).1
          = (submitted_jobs (group_by_size exFS)).length
        ↔ (submitted_jobs (group_by_size exFS)).length ≤ 3) ∧
      (hash_groups_state listCode exFS exComps).1
        = (submitted_jobs (group_by_size exFS)).length :=
  job_accounting listCode exFS exComps 1 3 (by decide) (by decide)

/-- C8: the serialization written by `save_result` follows exactly the
spec's format, and only it: buckets in returned order, each member path on
its own line with a trailing newline, then the fixed separator line
`================================` before the next bucket. -/
theorem save_result_follows_format (duplicates : List (Nat × List String)) :
    save_result duplicates = save_result_format duplicates := by
  simp only [save_result]
  rw [save_result_fold]
  apply String.ext
  simp [String.data_append]

/-- C9 counterexample: the Grouper does not skip symlinks.  `exLink` is a
symlink entry whose stat succeeds (`os.path.getsize` follows links); its
path is placed in a returned size bucket together with the regular file of
the same size, contradicting the claim that a symlink's path is never
added to any size bucket. -/
theorem symlink_not_skipped_counterexample :
    exLink.kind = EntryKind.symlink ∧ exLink ∈ exLinkFS ∧
      exLink.path ∈ (group_by_size exLinkFS).flatten := by
  decide

/-- C9 amended: the Size Grouper's only filter is stat success and the kind
of an entry plays no role in grouping: relabelling every entry's kind
arbitrarily leaves the grouping unchanged, and an entry whose stat fails is
skipped silently — its path is never added to any size bucket. -/
theorem stat_filter_only (fs : List Entry) (f : Entry → EntryKind) (e : Entry)
    (hnodup : (fs.map (fun e => e.path)).Nodup) (he : e ∈ fs) (hstat : e.statSize = none) :
    group_by_size (fs.map (relabel f)) = group_by_size fs ∧
      excludedFromGroups (group_by_size fs) e.path :=
  ⟨group_by_size_relabel f fs, not_mem_groups_of_statSize_none hnodup he hstat⟩

/-- Witness for the amended C9: relabelling all of `exFS` as symlinks
changes nothing, and the unstattable `e` is in no bucket. -/
theorem stat_filter_only_witness :
    group_by_size (exFS.map (relabel (fun _ => EntryKind.symlink))) = group_by_size exFS ∧
      excludedFromGroups (group_by_size exFS) exE.path :=
  stat_filter_only exFS (fun _ => EntryKind.symlink) exE (by decide) (by decide) (by decide)

/-- C10: for every readable file and every positive block size, the chunked
digest computed by `md5` (reading in `bs`-byte pieces through the
incremental accumulator) equals the digest of the entire content hashed in
one piece (`md5_update [] c` is the accumulator fed the whole content
once); the result depends only on the content, never on the chunk
boundaries. -/
theorem chunked_digest_eq_whole (hashFn : List Nat → Nat) (fs : List Entry) (p : String)
    (bs : Nat) (c : List Nat) (hbs : 0 < bs) (hc : readFile fs p = some c) :
    md5 hashFn fs p bs = (p, some (hashFn (md5_update [] c))) := by
  rw [md5_eq_some hashFn fs p bs c hbs hc]
  simp [md5_update]

/-- Witness for C10: hashing `a` (content `[0, 0]`) with block size 1 — two
chunks — gives the digest of the whole content. -/
theorem chunked_digest_eq_whole_witness :
    md5 listCode exFS "a" 1 = ("a", some (listCode (md5_update [] [0, 0]))) :=
  chunked_digest_eq_whole listCode exFS "a" 1 [0, 0] (by decide) (by decide)

end FindDuplicates
